import Mathlib

/-!
# crawler.go: the feed-resolution cascade

A shallow embedding of `crawler.go` (`isPageRSS`, `fetchRSSLinks`,
`googleSearchRssLinks`, `Crawl`) and the properties of the cascade.

Go strings are byte sequences; a byte is modelled as a natural number (the
theorems never use the bound 256).  The network is modelled as an oracle that
may answer every request differently: it sees the history of the calls made so
far.  Every function threads that history, which also serves as the call log
that the short-circuit properties are stated on.  A run-time panic (an index
out of range, the dereference of a `nil` request) is a `Fault`.
-/

namespace Crawler

/-! ## Go strings -/

/-- A Go `string` / `[]byte`: a finite sequence of bytes. -/
abbrev Str := List Nat

/-- The bytes of an ASCII literal. -/
def ascii (s : String) : Str := s.toList.map Char.toNat

/-- Go `strings.HasPrefix(s, p)`. -/
def HasPrefix : Str → Str → Bool
  | _, [] => true
  | [], _ :: _ => false
  | c :: s, d :: p => c == d && HasPrefix s p

/-- Go `strings.Contains(s, substr)`: `substr` occurs at some offset of `s`. -/
def Contains : Str → Str → Bool
  | [], substr => HasPrefix [] substr
  | c :: s, substr => HasPrefix (c :: s) substr || Contains s substr

/-- Go `strings.TrimPrefix(s, p)`: `s` without the leading `p`, or `s` itself
when `s` does not start with `p`. -/
def TrimPrefix (s p : Str) : Str :=
  if HasPrefix s p then s.drop p.length else s

/-- Go `strings.Split(s, sep)` for a one-byte separator: the segments between
the occurrences of `sep`; always at least one segment. -/
def Split : Str → Nat → List Str
  | [], _ => [[]]
  | c :: s, sep =>
    if c = sep then [] :: Split s sep
    else
      match Split s sep with
      | [] => [[c]]
      | p :: ps => (c :: p) :: ps

/-- The byte `.`. -/
def dot : Nat := 46

/-- The literal `"http://"`. -/
def httpScheme : Str := ascii "http://"

/-- The literal `"https://"`. -/
def httpsScheme : Str := ascii "https://"

/-- The literal `"<?xml version"`. -/
def xmlMarker : Str := ascii "<?xml version"

/-- The literal `"href"`. -/
def hrefKey : Str := ascii "href"

/-- The literal `"type"`. -/
def typeKey : Str := ascii "type"

/-- The literal `"application/rss+xml"`. -/
def rssType : Str := ascii "application/rss+xml"

/-- The literal `"rss"`. -/
def rssWord : Str := ascii "rss"

/-! ## The collaborators -/

/-- An `html.Attribute` of a tag: the fields the crawler reads. -/
structure Attribute where
  /-- Field `Key`. -/
  Key : Str
  /-- Field `Val`. -/
  Val : Str
  deriving DecidableEq, Repr

/-- The kinds of token `html.Tokenizer.Next` yields before it reports
`html.ErrorToken`. -/
inductive TokenType where
  | TextToken
  | StartTagToken
  | EndTagToken
  | SelfClosingTagToken
  | CommentToken
  | DoctypeToken
  deriving DecidableEq, Repr

/-- An `html.Token`: its kind and its attribute list, in markup order. -/
structure Token where
  /-- Field `Type` (a reserved word here). -/
  Typ : TokenType
  /-- Field `Attr`. -/
  Attr : List Attribute
  deriving DecidableEq, Repr

/-- One entry of the slice `googleResultParser` returns; only the field
`ResultURL` is read by the crawler. -/
structure GoogleResult where
  /-- Field `ResultURL`. -/
  ResultURL : Str
  deriving DecidableEq, Repr

/-- A call recorded in the history, logged when the function is entered. -/
inductive Call where
  | isPageRSS (URL : Str)
  | fetchRSSLinks (URL : Str)
  | googleSearchRssLinks (keyword : Str)
  deriving DecidableEq, Repr

/-- The history of calls made so far, oldest first. -/
abbrev History := List Call

/-- The outcome of building and sending a GET request.

* `badRequest`: `http.NewRequest` returned an error (the address cannot be
  parsed), so the request value is `nil`.
* `failed`: the request was built, and sending it, reading the body or
  parsing the result page returned an error.
* `ok a`: the answer `a` was obtained. -/
inductive Fetched (α : Type) where
  | badRequest
  | failed
  | ok (a : α)
  deriving DecidableEq, Repr

/-- The network and the libraries in front of it.  Every answer may depend on
the history of calls made before the request.

* `get h URL`: the GET request of `isPageRSS` (built by `http.NewRequest`,
  sent with the browser `User-Agent`, body read by `ioutil.ReadAll`).
* `page h URL`: the tokens `html.NewTokenizer` yields on the body of
  `http.Get(URL)` before its first `ErrorToken` (end of input or read error);
  `none` when `http.Get` returns an error.
* `search h URL`: the GET request of `googleSearchRssLinks` (built by
  `http.NewRequest`) and what `googleResultParser` returns on its response. -/
structure World where
  get : History → Str → Fetched Str
  page : History → Str → Option (List Token)
  search : History → Str → Fetched (List GoogleResult)

/-- A Go run-time panic. -/
inductive Fault where
  /-- The text `index out of range [index] with length len`. -/
  | indexOutOfRange (index len : Nat)
  /-- The text `invalid memory address or nil pointer dereference`. -/
  | nilDereference
  deriving DecidableEq, Repr

deriving instance DecidableEq for Except

/-! ## isPageRSS -/

/-- Lines 41-48 of `isPageRSS`: the decision on the body that was read. -/
def classifyBody (body : Str) : Bool :=
  if body.length < 17 then false
  else
    let doctype := body.take 16
    Contains doctype xmlMarker

/-- The function `isPageRSS(URL)`: whether the page at `URL` is of RSS format.
The error of `http.NewRequest` is dropped (line 25), so on an address that
cannot be parsed `req.Header.Set` (line 26) dereferences a `nil` request; a
failed request or a failed read gives `false`. -/
def isPageRSS (w : World) (URL : Str) (h : History) : Except Fault Bool × History :=
  let h1 := h ++ [Call.isPageRSS URL]
  match w.get h URL with
  | .badRequest => (.error .nilDereference, h1)
  | .failed => (.ok false, h1)
  | .ok body => (.ok (classifyBody body), h1)

/-! ## fetchRSSLinks -/

/-- Lines 88-93: whether some attribute of the tag is
`type="application/rss+xml"`. -/
def relatedAttrExists : List Attribute → Bool
  | [] => false
  | a :: as =>
    if a.Key = typeKey ∧ a.Val = rssType then true else relatedAttrExists as

/-- The state of the scan after the attributes of a tag: `done` is set when
the size guard has made the function return. -/
structure Scan where
  done : Bool
  rssLinks : List Str
  deriving DecidableEq, Repr

/-- Lines 80-102: the loop over the attributes of the start tag `t`; the list
argument holds the attributes still to visit. -/
def attrLoop (w : World) (t : Token) :
    List Attribute → List Str → History → Except Fault Scan × History
  | [], rssLinks, h => (.ok ⟨false, rssLinks⟩, h)
  | a :: as, rssLinks, h =>
    if rssLinks.length ≥ 20 then (.ok ⟨true, rssLinks⟩, h)
    else
      if a.Key = hrefKey ∧ (relatedAttrExists t.Attr = true ∨ Contains a.Val rssWord = true) then
        let r := isPageRSS w a.Val h
        match r.1 with
        | .error e => (.error e, r.2)
        | .ok true => attrLoop w t as (rssLinks ++ [a.Val]) r.2
        | .ok false => attrLoop w t as rssLinks r.2
      else attrLoop w t as rssLinks h

/-- Lines 70-107: the loop over the tokens; the end of the list is the
`ErrorToken` that ends the document. -/
def tokenLoop (w : World) :
    List Token → List Str → History → Except Fault (List Str) × History
  | [], rssLinks, h => (.ok rssLinks, h)
  | t :: ts, rssLinks, h =>
    if t.Typ = TokenType.StartTagToken then
      let s := attrLoop w t t.Attr rssLinks h
      match s.1 with
      | .error e => (.error e, s.2)
      | .ok sc => if sc.done = true then (.ok sc.rssLinks, s.2) else tokenLoop w ts sc.rssLinks s.2
    else tokenLoop w ts rssLinks h

/-- The function `fetchRSSLinks(URL)`: the links of the page at `URL` that are
RSS feeds, at most 20. -/
def fetchRSSLinks (w : World) (URL : Str) (h : History) :
    Except Fault (List Str) × History :=
  let h1 := h ++ [Call.fetchRSSLinks URL]
  match w.page h URL with
  | none => (.ok [], h1)
  | some toks => tokenLoop w toks [] h1

/-! ## googleSearchRssLinks -/

/-- The address queried by `googleSearchRssLinks(keyword)`. -/
def searchURL (keyword : Str) : Str :=
  ascii "https://www.google.com/search?q=" ++ keyword ++ ascii "+rss"

/-- Lines 144-160: the loop `for i := 0; i < 3; i++`; the first argument is the
number `3 - i` of iterations left. -/
def rankLoop (w : World) (result : List GoogleResult) :
    Nat → Nat → History → Except Fault (List Str) × History
  | 0, _, h => (.ok [], h)
  | n + 1, i, h =>
    match result[i]? with
    | none => (.error (.indexOutOfRange i result.length), h)
    | some r =>
      let c := isPageRSS w r.ResultURL h
      match c.1 with
      | .error e => (.error e, c.2)
      | .ok true => (.ok [r.ResultURL], c.2)
      | .ok false =>
        let f := fetchRSSLinks w r.ResultURL c.2
        match f.1 with
        | .error e => (.error e, f.2)
        | .ok tempLinks =>
          if tempLinks.length ≠ 0 then (.ok tempLinks, f.2)
          else rankLoop w result n (i + 1) f.2

/-- The function `googleSearchRssLinks(keyword)`: a search for `keyword` and a
probe of the first three results.  As in `isPageRSS`, the error of
`http.NewRequest` is dropped (line 120) before `req.Header.Set` (line 121). -/
def googleSearchRssLinks (w : World) (keyword : Str) (h : History) :
    Except Fault (List Str) × History :=
  let URL := searchURL keyword
  let h1 := h ++ [Call.googleSearchRssLinks keyword]
  match w.search h URL with
  | .badRequest => (.error .nilDereference, h1)
  | .failed => (.ok [], h1)
  | .ok result =>
    if result.length = 0 then (.ok [], h1)
    else rankLoop w result 3 0 h1

/-! ## Crawl -/

/-- Lines 169-171 of `Crawl`: the scheme is prepended unless one occurs
somewhere in the address. -/
def normalize (URL : Str) : Str :=
  if (!Contains URL httpScheme && !Contains URL httpsScheme) = true then httpScheme ++ URL
  else URL

/-- Lines 186-195 of `Crawl`: the keyword derived from the address. -/
def deriveKeyword (URL : Str) : Except Fault Str :=
  let parts := Split URL dot
  match parts[0]? with
  | none => .error (.indexOutOfRange 0 parts.length)
  | some p0 =>
    if p0 = ascii "http://www" ∨ p0 = ascii "https://www" then
      match parts[1]? with
      | none => .error (.indexOutOfRange 1 parts.length)
      | some p1 => .ok p1
    else if Contains p0 httpsScheme = true then .ok (TrimPrefix p0 httpsScheme)
    else if Contains p0 httpScheme = true then .ok (TrimPrefix p0 httpScheme)
    else .ok []

/-- The function `Crawl(URL)`: the cascade direct check, harvest, search. -/
def Crawl (w : World) (URL : Str) (h : History) : Except Fault (List Str) × History :=
  let URL := normalize URL
  let c := isPageRSS w URL h
  match c.1 with
  | .error e => (.error e, c.2)
  | .ok true => (.ok [URL], c.2)
  | .ok false =>
    let f := fetchRSSLinks w URL c.2
    match f.1 with
    | .error e => (.error e, f.2)
    | .ok links =>
      if links.length = 0 then
        match deriveKeyword URL with
        | .error e => (.error e, f.2)
        | .ok keyword => googleSearchRssLinks w keyword f.2
      else (.ok links, f.2)

/-! ## The reference harvest -/

/-- The acceptance rule of the harvester in the specification's words: the
attribute's key is `href`, the same tag has an attribute
`type="application/rss+xml"` or the value contains `rss`, and the value
classifies as a feed. -/
def keeps (cls : Str → Bool) (t : Token) (a : Attribute) : Bool :=
  decide (a.Key = hrefKey) &&
    ((t.Attr.any fun b => decide (b.Key = typeKey ∧ b.Val = rssType)) ||
      decide (rssWord <:+: a.Val)) &&
    cls a.Val

/-- The unbounded reference list of the specification: the start tags in
stream order, their attributes in attribute order, the values that are kept. -/
def referenceLinks (cls : Str → Bool) : List Token → List Str
  | [] => []
  | t :: ts =>
    if t.Typ = TokenType.StartTagToken then
      (t.Attr.filter (keeps cls t)).map Attribute.Val ++ referenceLinks cls ts
    else referenceLinks cls ts

/-! ## Sample networks and pages -/

/-- A feed document. -/
def xmlBody : Str := ascii "<?xml version=\"1.0\"?><rss>...</rss>"

/-- Addresses the sample networks take `http.NewRequest` to accept: no
space, control or non-ASCII byte, and no leading colon.  The library rejects
`:rss` (missing protocol scheme) and `http://exa mple.com` (space in the host
name). -/
def parses (URL : Str) : Bool :=
  URL.all (fun c => decide (32 < c ∧ c < 127)) && !HasPrefix URL (ascii ":")

/-- A sample network: the addresses in `feeds` answer with a feed document and
every other request fails to connect; every page that can be fetched is
`page`; every search that can be sent has the results `result`. -/
def sampleWorld (feeds : List Str) (page : Option (List Token))
    (result : Option (List GoogleResult)) : World where
  get := fun _ u =>
    if parses u = true then (if feeds.contains u = true then .ok xmlBody else .failed)
    else .badRequest
  page := fun _ u => if parses u = true then page else none
  search := fun _ u =>
    if parses u = true then
      match result with
      | none => .failed
      | some r => .ok r
    else .badRequest

/-- A network on which every request fails. -/
def deadWorld : World := sampleWorld [] none none

/-- The tag `<a href="https://x.com/rsslatest">`. -/
def rssAnchor : Token := ⟨.StartTagToken, [⟨hrefKey, ascii "https://x.com/rsslatest"⟩]⟩

/-- The tag `<a href=":rss">`, whose address cannot be parsed. -/
def brokenAnchor : Token := ⟨.StartTagToken, [⟨hrefKey, ascii ":rss"⟩]⟩

/-- The tag `<link type="application/rss+xml" href="http://x.com/feed">`. -/
def feedLink : Token :=
  ⟨.StartTagToken, [⟨typeKey, rssType⟩, ⟨hrefKey, ascii "http://x.com/feed"⟩]⟩

/-- A page with twenty `rss` anchors followed by the feed link. -/
def crowdedPage : List Token := List.replicate 20 rssAnchor ++ [feedLink]

/-! ## Strings -/

theorem hasPrefix_iff (s p : Str) : HasPrefix s p = true ↔ p <+: s := by
  induction p generalizing s with
  | nil => simp [HasPrefix]
  | cons d p ih =>
    cases s with
    | nil => simp [HasPrefix]
    | cons c s =>
      simp only [HasPrefix, Bool.and_eq_true, beq_iff_eq, ih, List.cons_prefix_cons]
      constructor
      · rintro ⟨h1, h2⟩; exact ⟨h1.symm, h2⟩
      · rintro ⟨h1, h2⟩; exact ⟨h1.symm, h2⟩

theorem contains_iff (s sub : Str) : Contains s sub = true ↔ sub <:+: s := by
  induction s with
  | nil =>
    simp only [Contains, hasPrefix_iff]
    constructor
    · intro h; exact h.isInfix
    · intro h
      have : sub = [] := List.eq_nil_of_infix_nil h
      simp [this]
  | cons c s ih =>
    simp only [Contains, Bool.or_eq_true, hasPrefix_iff, ih, List.infix_cons_iff]

theorem contains_eq_false_iff (s sub : Str) : Contains s sub = false ↔ ¬ sub <:+: s := by
  rw [← contains_iff]; simp

/-! ## The call log -/

theorem isPageRSS_hist (w : World) (URL : Str) (h : History) :
    (isPageRSS w URL h).2 = h ++ [Call.isPageRSS URL] := by
  unfold isPageRSS
  cases w.get h URL <;> rfl

theorem isPageRSS_fst (w : World) (URL : Str) (h : History) :
    (isPageRSS w URL h).1 = (match w.get h URL with
      | .badRequest => .error .nilDereference
      | .failed => .ok false
      | .ok body => .ok (classifyBody body)) := by
  unfold isPageRSS
  cases w.get h URL <;> rfl

theorem attrLoop_nil (w : World) (t : Token) (acc : List Str) (h : History) :
    attrLoop w t [] acc h = (.ok ⟨false, acc⟩, h) := rfl

theorem attrLoop_cons (w : World) (t : Token) (a : Attribute) (as : List Attribute)
    (acc : List Str) (h : History) :
    attrLoop w t (a :: as) acc h =
      if acc.length ≥ 20 then (.ok ⟨true, acc⟩, h)
      else
        if a.Key = hrefKey ∧
            (relatedAttrExists t.Attr = true ∨ Contains a.Val rssWord = true) then
          match (isPageRSS w a.Val h).1 with
          | .error e => (.error e, h ++ [Call.isPageRSS a.Val])
          | .ok true => attrLoop w t as (acc ++ [a.Val]) (h ++ [Call.isPageRSS a.Val])
          | .ok false => attrLoop w t as acc (h ++ [Call.isPageRSS a.Val])
        else attrLoop w t as acc h := by
  rw [attrLoop]
  simp only [isPageRSS_hist]

theorem tokenLoop_nil (w : World) (acc : List Str) (h : History) :
    tokenLoop w [] acc h = (.ok acc, h) := rfl

theorem tokenLoop_cons (w : World) (t : Token) (ts : List Token) (acc : List Str)
    (h : History) :
    tokenLoop w (t :: ts) acc h =
      if t.Typ = TokenType.StartTagToken then
        match (attrLoop w t t.Attr acc h).1 with
        | .error e => (.error e, (attrLoop w t t.Attr acc h).2)
        | .ok sc =>
          if sc.done = true then (.ok sc.rssLinks, (attrLoop w t t.Attr acc h).2)
          else tokenLoop w ts sc.rssLinks (attrLoop w t t.Attr acc h).2
      else tokenLoop w ts acc h := by
  rw [tokenLoop]

theorem attrLoop_hist (w : World) (t : Token) (as : List Attribute) (acc : List Str)
    (h : History) : ∃ l, (attrLoop w t as acc h).2 = h ++ l := by
  induction as generalizing acc h with
  | nil => exact ⟨[], by simp [attrLoop_nil]⟩
  | cons a as ih =>
    rw [attrLoop_cons]
    split
    · exact ⟨[], by simp⟩
    · split
      · split
        · exact ⟨[Call.isPageRSS a.Val], rfl⟩
        · obtain ⟨l, hl⟩ := ih (acc ++ [a.Val]) (h ++ [Call.isPageRSS a.Val])
          exact ⟨Call.isPageRSS a.Val :: l, by simp [hl]⟩
        · obtain ⟨l, hl⟩ := ih acc (h ++ [Call.isPageRSS a.Val])
          exact ⟨Call.isPageRSS a.Val :: l, by simp [hl]⟩
      · exact ih acc h

theorem tokenLoop_hist (w : World) (ts : List Token) (acc : List Str) (h : History) :
    ∃ l, (tokenLoop w ts acc h).2 = h ++ l := by
  induction ts generalizing acc h with
  | nil => exact ⟨[], by simp [tokenLoop_nil]⟩
  | cons t ts ih =>
    rw [tokenLoop_cons]
    split
    · obtain ⟨l1, hl1⟩ := attrLoop_hist w t t.Attr acc h
      split
      · exact ⟨l1, hl1⟩
      · rename_i sc _
        split
        · exact ⟨l1, hl1⟩
        · obtain ⟨l2, hl2⟩ := ih sc.rssLinks (attrLoop w t t.Attr acc h).2
          exact ⟨l1 ++ l2, by rw [hl2, hl1, List.append_assoc]⟩
    · exact ih acc h

theorem fetchRSSLinks_hist (w : World) (URL : Str) (h : History) :
    ∃ l, (fetchRSSLinks w URL h).2 = h ++ Call.fetchRSSLinks URL :: l := by
  unfold fetchRSSLinks
  cases w.page h URL with
  | none => exact ⟨[], rfl⟩
  | some toks =>
    obtain ⟨l, hl⟩ := tokenLoop_hist w toks [] (h ++ [Call.fetchRSSLinks URL])
    exact ⟨l, by simp [hl]⟩

theorem rankLoop_succ (w : World) (result : List GoogleResult) (n i : Nat) (h : History) :
    rankLoop w result (n + 1) i h =
      match result[i]? with
      | none => (.error (.indexOutOfRange i result.length), h)
      | some r =>
        match (isPageRSS w r.ResultURL h).1 with
        | .error e => (.error e, h ++ [Call.isPageRSS r.ResultURL])
        | .ok true => (.ok [r.ResultURL], h ++ [Call.isPageRSS r.ResultURL])
        | .ok false =>
          match (fetchRSSLinks w r.ResultURL (h ++ [Call.isPageRSS r.ResultURL])).1 with
          | .error e =>
            (.error e, (fetchRSSLinks w r.ResultURL (h ++ [Call.isPageRSS r.ResultURL])).2)
          | .ok tempLinks =>
            if tempLinks.length ≠ 0 then
              (.ok tempLinks, (fetchRSSLinks w r.ResultURL (h ++ [Call.isPageRSS r.ResultURL])).2)
            else rankLoop w result n (i + 1)
              (fetchRSSLinks w r.ResultURL (h ++ [Call.isPageRSS r.ResultURL])).2 := by
  rw [rankLoop]
  simp only [isPageRSS_hist]

theorem rankLoop_hist (w : World) (result : List GoogleResult) (n i : Nat) (h : History) :
    ∃ l, (rankLoop w result n i h).2 = h ++ l := by
  induction n generalizing i h with
  | zero => exact ⟨[], by simp [rankLoop]⟩
  | succ n ih =>
    rw [rankLoop_succ]
    split
    · exact ⟨[], by simp⟩
    · rename_i r _
      obtain ⟨l1, hl1⟩ := fetchRSSLinks_hist w r.ResultURL (h ++ [Call.isPageRSS r.ResultURL])
      split
      · exact ⟨[Call.isPageRSS r.ResultURL], rfl⟩
      · exact ⟨[Call.isPageRSS r.ResultURL], rfl⟩
      · split
        · exact ⟨Call.isPageRSS r.ResultURL :: Call.fetchRSSLinks r.ResultURL :: l1, by
            rw [hl1]; simp⟩
        · split
          · exact ⟨Call.isPageRSS r.ResultURL :: Call.fetchRSSLinks r.ResultURL :: l1, by
              rw [hl1]; simp⟩
          · obtain ⟨l2, hl2⟩ := ih (i + 1)
              (fetchRSSLinks w r.ResultURL (h ++ [Call.isPageRSS r.ResultURL])).2
            exact ⟨Call.isPageRSS r.ResultURL :: Call.fetchRSSLinks r.ResultURL :: (l1 ++ l2), by
              rw [hl2, hl1]; simp⟩

theorem googleSearchRssLinks_hist (w : World) (keyword : Str) (h : History) :
    ∃ l, (googleSearchRssLinks w keyword h).2 = h ++ Call.googleSearchRssLinks keyword :: l := by
  unfold googleSearchRssLinks
  simp only
  split
  · exact ⟨[], rfl⟩
  · exact ⟨[], rfl⟩
  · rename_i result _
    split
    · exact ⟨[], rfl⟩
    · obtain ⟨l, hl⟩ := rankLoop_hist w result 3 0 (h ++ [Call.googleSearchRssLinks keyword])
      exact ⟨l, by rw [hl]; simp⟩

theorem Crawl_eq (w : World) (URL : Str) (h : History) :
    Crawl w URL h =
      match (isPageRSS w (normalize URL) h).1 with
      | .error e => (.error e, h ++ [Call.isPageRSS (normalize URL)])
      | .ok true => (.ok [normalize URL], h ++ [Call.isPageRSS (normalize URL)])
      | .ok false =>
        match (fetchRSSLinks w (normalize URL) (h ++ [Call.isPageRSS (normalize URL)])).1 with
        | .error e =>
          (.error e, (fetchRSSLinks w (normalize URL) (h ++ [Call.isPageRSS (normalize URL)])).2)
        | .ok links =>
          if links.length = 0 then
            match deriveKeyword (normalize URL) with
            | .error e =>
              (.error e,
                (fetchRSSLinks w (normalize URL) (h ++ [Call.isPageRSS (normalize URL)])).2)
            | .ok keyword => googleSearchRssLinks w keyword
                (fetchRSSLinks w (normalize URL) (h ++ [Call.isPageRSS (normalize URL)])).2
          else
            (.ok links,
              (fetchRSSLinks w (normalize URL) (h ++ [Call.isPageRSS (normalize URL)])).2) := by
  unfold Crawl
  simp only [isPageRSS_hist]

/-! ## Normalisation -/

theorem normalize_of_no_scheme (s : Str) (h1 : ¬ httpScheme <:+: s) (h2 : ¬ httpsScheme <:+: s) :
    normalize s = httpScheme ++ s := by
  unfold normalize
  rw [(contains_eq_false_iff s httpScheme).2 h1, (contains_eq_false_iff s httpsScheme).2 h2]
  rfl

theorem normalize_of_scheme (s : Str) (h : httpScheme <:+: s ∨ httpsScheme <:+: s) :
    normalize s = s := by
  unfold normalize
  rcases h with h | h
  · rw [(contains_iff s httpScheme).2 h]; rfl
  · rw [(contains_iff s httpsScheme).2 h]; simp

/-! ## The properties -/

/-- C1: when the normalized address classifies as a feed, `Crawl` returns
exactly that one address, and the only call it makes is the classification:
neither `fetchRSSLinks` nor `googleSearchRssLinks` is entered. -/
theorem Crawl_direct_hit (w : World) (URL : Str) (h : History)
    (hfeed : (isPageRSS w (normalize URL) h).1 = .ok true) :
    Crawl w URL h = (.ok [normalize URL], h ++ [Call.isPageRSS (normalize URL)]) ∧
    (∀ u, Call.fetchRSSLinks u ∉ (Crawl w URL h).2.drop h.length) ∧
    (∀ k, Call.googleSearchRssLinks k ∉ (Crawl w URL h).2.drop h.length) := by
  have hc : Crawl w URL h = (.ok [normalize URL], h ++ [Call.isPageRSS (normalize URL)]) := by
    rw [Crawl_eq, hfeed]
  refine ⟨hc, ?_, ?_⟩
  · intro u; rw [hc]; simp
  · intro k; rw [hc]; simp

theorem Crawl_direct_hit_witness :
    Crawl (sampleWorld [ascii "http://example.com"] none none) (ascii "example.com") [] =
      (.ok [normalize (ascii "example.com")],
        [] ++ [Call.isPageRSS (normalize (ascii "example.com"))]) ∧
    (∀ u, Call.fetchRSSLinks u ∉
      (Crawl (sampleWorld [ascii "http://example.com"] none none)
        (ascii "example.com") []).2.drop ([] : History).length) ∧
    (∀ k, Call.googleSearchRssLinks k ∉
      (Crawl (sampleWorld [ascii "http://example.com"] none none)
        (ascii "example.com") []).2.drop ([] : History).length) :=
  Crawl_direct_hit (sampleWorld [ascii "http://example.com"] none none)
    (ascii "example.com") [] (by decide)

/-- C2: the address `Crawl` works on is `"http://" ++ s` when `s` contains
neither `"http://"` nor `"https://"` anywhere, and `s` itself otherwise; that
address is the one classified first, the one harvested next, and the one the
keyword is derived from. -/
theorem Crawl_normalized_address (w : World) (s : Str) (h : History) :
    (¬ httpScheme <:+: s → ¬ httpsScheme <:+: s → normalize s = httpScheme ++ s) ∧
    (httpScheme <:+: s ∨ httpsScheme <:+: s → normalize s = s) ∧
    normalize (ascii "example.com") = ascii "http://example.com" ∧
    normalize (ascii "myapi.com/http://") = ascii "myapi.com/http://" ∧
    (∃ l, (Crawl w s h).2 = h ++ Call.isPageRSS (normalize s) :: l) ∧
    ((isPageRSS w (normalize s) h).1 = .ok false →
      ∃ l, (Crawl w s h).2 =
        h ++ Call.isPageRSS (normalize s) :: Call.fetchRSSLinks (normalize s) :: l) ∧
    ((isPageRSS w (normalize s) h).1 = .ok false →
      (fetchRSSLinks w (normalize s) (h ++ [Call.isPageRSS (normalize s)])).1 = .ok [] →
      (∀ e, deriveKeyword (normalize s) = .error e → (Crawl w s h).1 = .error e) ∧
      (∀ k, deriveKeyword (normalize s) = .ok k →
        Crawl w s h = googleSearchRssLinks w k
          (fetchRSSLinks w (normalize s) (h ++ [Call.isPageRSS (normalize s)])).2)) := by
  have hlog : ∀ c : Except Fault Bool, (isPageRSS w (normalize s) h).1 = c →
      c ≠ .ok true → ∃ l, (Crawl w s h).2 =
        h ++ Call.isPageRSS (normalize s) ::
          (match c with
            | .ok false => Call.fetchRSSLinks (normalize s) :: l
            | _ => l) := by
    intro c hc hne
    rw [Crawl_eq, hc]
    obtain ⟨l1, hl1⟩ :=
      fetchRSSLinks_hist w (normalize s) (h ++ [Call.isPageRSS (normalize s)])
    match c, hne with
    | .error e, _ => exact ⟨[], by simp⟩
    | .ok true, hne => exact absurd rfl hne
    | .ok false, _ =>
      simp only
      split
      · exact ⟨l1, by rw [hl1]; simp⟩
      · split
        · split
          · exact ⟨l1, by rw [hl1]; simp⟩
          · rename_i k _
            obtain ⟨l2, hl2⟩ := googleSearchRssLinks_hist w k
              (fetchRSSLinks w (normalize s) (h ++ [Call.isPageRSS (normalize s)])).2
            exact ⟨l1 ++ Call.googleSearchRssLinks k :: l2, by rw [hl2, hl1]; simp⟩
        · exact ⟨l1, by rw [hl1]; simp⟩
  refine ⟨normalize_of_no_scheme s, normalize_of_scheme s, by decide, by decide, ?_, ?_, ?_⟩
  · by_cases hc : (isPageRSS w (normalize s) h).1 = .ok true
    · exact ⟨[], by rw [Crawl_eq, hc]⟩
    · obtain ⟨l, hl⟩ := hlog _ rfl hc
      exact ⟨_, hl⟩
  · intro hc
    obtain ⟨l, hl⟩ := hlog _ hc (by simp)
    exact ⟨l, hl⟩
  · intro hc hf
    constructor
    · intro e he
      rw [Crawl_eq, hc]
      simp only [hf, he, List.length_nil, if_true]
    · intro k hk
      rw [Crawl_eq, hc]
      simp only [hf, hk, List.length_nil, if_true]

theorem Crawl_normalized_address_witness :
    normalize (ascii "example.com") = httpScheme ++ ascii "example.com" :=
  (Crawl_normalized_address deadWorld (ascii "example.com") []).1 (by decide) (by decide)

/-- C3: on a body `b` that was read, `isPageRSS` answers true exactly when
`b` has at least 17 bytes and its first 16 bytes contain `<?xml version`; so a
body shorter than 17 bytes is not a feed, the XML example is one and the HTML
example is not. -/
theorem isPageRSS_iff_marker (w : World) (URL : Str) (h : History) (b : Str)
    (hb : w.get h URL = .ok b) :
    ((isPageRSS w URL h).1 = .ok true ↔ 17 ≤ b.length ∧ xmlMarker <:+: b.take 16) ∧
    (b.length < 17 → (isPageRSS w URL h).1 = .ok false) ∧
    (b = ascii "<?xml version=\"1.0\"?><rss>...</rss>" → (isPageRSS w URL h).1 = .ok true) ∧
    (b = ascii "<html><head></head></html>" → (isPageRSS w URL h).1 = .ok false) := by
  have hc : (isPageRSS w URL h).1 = .ok (classifyBody b) := by rw [isPageRSS_fst, hb]
  have hiff : classifyBody b = true ↔ 17 ≤ b.length ∧ xmlMarker <:+: b.take 16 := by
    unfold classifyBody
    by_cases hl : b.length < 17
    · simp only [hl, if_true]
      constructor
      · intro hf; cases hf
      · rintro ⟨h17, _⟩; omega
    · simp only [hl, if_false, contains_iff]
      constructor
      · intro hm; exact ⟨by omega, hm⟩
      · rintro ⟨_, hm⟩; exact hm
  rw [hc]
  refine ⟨?_, ?_, ?_, ?_⟩
  · rw [← hiff]
    constructor
    · intro he; injection he
    · intro he; rw [he]
  · intro hl
    cases hcb : classifyBody b with
    | false => rfl
    | true => have := (hiff.1 hcb).1; omega
  · intro hx; rw [hx]; decide
  · intro hx; rw [hx]; decide

theorem isPageRSS_iff_marker_witness :
    (ascii "<rss></rss>").length < 17 ∧
    (isPageRSS ⟨fun _ _ => .ok (ascii "<rss></rss>"), fun _ _ => none, fun _ _ => .failed⟩
      (ascii "http://example.com/feed") []).1 = .ok false :=
  ⟨by decide,
    (isPageRSS_iff_marker
      ⟨fun _ _ => .ok (ascii "<rss></rss>"), fun _ _ => none, fun _ _ => .failed⟩
      (ascii "http://example.com/feed") [] (ascii "<rss></rss>") rfl).2.1 (by decide)⟩

/-! ## The scan loops -/

theorem isPageRSS_error (w : World) (URL : Str) (h : History) (e : Fault)
    (he : (isPageRSS w URL h).1 = .error e) : e = .nilDereference := by
  rw [isPageRSS_fst] at he
  cases hg : w.get h URL with
  | badRequest => rw [hg] at he; injection he with he; exact he.symm
  | failed => rw [hg] at he; cases he
  | ok b => rw [hg] at he; cases he

theorem isPageRSS_returns (w : World) (hp : ∀ h u, w.get h u ≠ .badRequest) (URL : Str)
    (h : History) : ∃ b, (isPageRSS w URL h).1 = .ok b := by
  rw [isPageRSS_fst]
  cases hg : w.get h URL with
  | badRequest => exact absurd hg (hp h URL)
  | failed => exact ⟨false, rfl⟩
  | ok b => exact ⟨classifyBody b, rfl⟩

theorem attrLoop_extends (w : World) (t : Token) (as : List Attribute) (acc : List Str)
    (h : History) (s : Scan) (hs : (attrLoop w t as acc h).1 = .ok s) :
    acc <+: s.rssLinks ∧ (s.done = true → 20 ≤ s.rssLinks.length) := by
  induction as generalizing acc h with
  | nil =>
    rw [attrLoop_nil] at hs
    injection hs with hs
    subst hs
    exact ⟨List.prefix_refl _, fun hd => by cases hd⟩
  | cons a as ih =>
    rw [attrLoop_cons] at hs
    split at hs
    · rename_i hge
      injection hs with hs
      subst hs
      exact ⟨List.prefix_refl _, fun _ => hge⟩
    · split at hs
      · split at hs
        · cases hs
        · obtain ⟨hp, hd⟩ := ih _ _ hs
          exact ⟨(List.prefix_append acc [a.Val]).trans hp, hd⟩
        · exact ih _ _ hs
      · exact ih _ _ hs

theorem attrLoop_length_le (w : World) (t : Token) (as : List Attribute) (acc : List Str)
    (h : History) (s : Scan) (hacc : acc.length ≤ 20)
    (hs : (attrLoop w t as acc h).1 = .ok s) : s.rssLinks.length ≤ 20 := by
  induction as generalizing acc h with
  | nil =>
    rw [attrLoop_nil] at hs
    injection hs with hs
    subst hs
    exact hacc
  | cons a as ih =>
    rw [attrLoop_cons] at hs
    split at hs
    · injection hs with hs
      subst hs
      exact hacc
    · rename_i hlt
      split at hs
      · split at hs
        · cases hs
        · exact ih _ _ (by rw [List.length_append, List.length_singleton]; omega) hs
        · exact ih _ _ hacc hs
      · exact ih _ _ hacc hs

theorem attrLoop_error (w : World) (t : Token) (as : List Attribute) (acc : List Str)
    (h : History) (e : Fault) (he : (attrLoop w t as acc h).1 = .error e) :
    e = .nilDereference := by
  induction as generalizing acc h with
  | nil => rw [attrLoop_nil] at he; cases he
  | cons a as ih =>
    rw [attrLoop_cons] at he
    split at he
    · cases he
    · split at he
      · split at he
        · rename_i e1 hr
          injection he with he
          subst he
          exact isPageRSS_error w a.Val h e1 hr
        · exact ih _ _ he
        · exact ih _ _ he
      · exact ih _ _ he

theorem attrLoop_returns (w : World) (hp : ∀ h u, w.get h u ≠ .badRequest) (t : Token)
    (as : List Attribute) (acc : List Str) (h : History) :
    ∃ s, (attrLoop w t as acc h).1 = .ok s := by
  induction as generalizing acc h with
  | nil => exact ⟨_, rfl⟩
  | cons a as ih =>
    rw [attrLoop_cons]
    split
    · exact ⟨_, rfl⟩
    · split
      · obtain ⟨b, hb⟩ := isPageRSS_returns w hp a.Val h
        rw [hb]
        cases b with
        | true => exact ih _ _
        | false => exact ih _ _
      · exact ih _ _

theorem tokenLoop_extends (w : World) (ts : List Token) (acc : List Str) (h : History)
    (l : List Str) (hl : (tokenLoop w ts acc h).1 = .ok l) : acc <+: l := by
  induction ts generalizing acc h with
  | nil =>
    rw [tokenLoop_nil] at hl
    injection hl with hl
    subst hl
    exact List.prefix_refl _
  | cons t ts ih =>
    rw [tokenLoop_cons] at hl
    split at hl
    · split at hl
      · cases hl
      · rename_i sc hsc
        have hp := (attrLoop_extends w t t.Attr acc h sc hsc).1
        split at hl
        · injection hl with hl
          subst hl
          exact hp
        · exact hp.trans (ih _ _ hl)
    · exact ih _ _ hl

theorem tokenLoop_length_le (w : World) (ts : List Token) (acc : List Str) (h : History)
    (l : List Str) (hacc : acc.length ≤ 20) (hl : (tokenLoop w ts acc h).1 = .ok l) :
    l.length ≤ 20 := by
  induction ts generalizing acc h with
  | nil =>
    rw [tokenLoop_nil] at hl
    injection hl with hl
    subst hl
    exact hacc
  | cons t ts ih =>
    rw [tokenLoop_cons] at hl
    split at hl
    · split at hl
      · cases hl
      · rename_i sc hsc
        have hle := attrLoop_length_le w t t.Attr acc h sc hacc hsc
        split at hl
        · injection hl with hl
          subst hl
          exact hle
        · exact ih _ _ hle hl
    · exact ih _ _ hacc hl

theorem tokenLoop_error (w : World) (ts : List Token) (acc : List Str) (h : History)
    (e : Fault) (he : (tokenLoop w ts acc h).1 = .error e) : e = .nilDereference := by
  induction ts generalizing acc h with
  | nil => rw [tokenLoop_nil] at he; cases he
  | cons t ts ih =>
    rw [tokenLoop_cons] at he
    split at he
    · split at he
      · rename_i e1 hr
        injection he with he
        subst he
        exact attrLoop_error w t t.Attr acc h e1 hr
      · split at he
        · cases he
        · exact ih _ _ he
    · exact ih _ _ he

theorem tokenLoop_returns (w : World) (hp : ∀ h u, w.get h u ≠ .badRequest)
    (ts : List Token) (acc : List Str) (h : History) :
    ∃ l, (tokenLoop w ts acc h).1 = .ok l := by
  induction ts generalizing acc h with
  | nil => exact ⟨_, rfl⟩
  | cons t ts ih =>
    rw [tokenLoop_cons]
    split
    · obtain ⟨s, hs⟩ := attrLoop_returns w hp t t.Attr acc h
      rw [hs]
      simp only
      split
      · exact ⟨_, rfl⟩
      · exact ih _ _
    · exact ih _ _

theorem fetchRSSLinks_eq_of_page (w : World) (URL : Str) (h : History) (toks : List Token)
    (hpage : w.page h URL = some toks) :
    fetchRSSLinks w URL h = tokenLoop w toks [] (h ++ [Call.fetchRSSLinks URL]) := by
  unfold fetchRSSLinks
  rw [hpage]

/-- C4: whatever the page's tokens and whatever the classifier answers, a
sequence that `fetchRSSLinks` returns has at most 20 links; the only way it
does not return one is the nil dereference in `isPageRSS`, and it returns one
whenever every request can be built. -/
theorem fetchRSSLinks_length_le (w : World) (URL : Str) (h : History) :
    (∀ links, (fetchRSSLinks w URL h).1 = .ok links → links.length ≤ 20) ∧
    (∀ toks links, (tokenLoop w toks [] (h ++ [Call.fetchRSSLinks URL])).1 = .ok links →
      links.length ≤ 20) ∧
    (∀ e, (fetchRSSLinks w URL h).1 = .error e → e = .nilDereference) ∧
    ((∀ h1 u, w.get h1 u ≠ .badRequest) →
      ∃ links, (fetchRSSLinks w URL h).1 = .ok links ∧ links.length ≤ 20) := by
  have hbound : ∀ links, (fetchRSSLinks w URL h).1 = .ok links → links.length ≤ 20 := by
    intro links hl
    unfold fetchRSSLinks at hl
    cases hpage : w.page h URL with
    | none =>
      rw [hpage] at hl
      injection hl with hl
      subst hl
      simp
    | some toks =>
      rw [hpage] at hl
      exact tokenLoop_length_le w toks [] _ links (by simp) hl
  refine ⟨hbound, ?_, ?_, ?_⟩
  · intro toks links hl
    exact tokenLoop_length_le w toks [] _ links (by simp) hl
  · intro e he
    unfold fetchRSSLinks at he
    cases hpage : w.page h URL with
    | none => rw [hpage] at he; cases he
    | some toks =>
      rw [hpage] at he
      exact tokenLoop_error w toks [] _ e he
  · intro hp
    have hret : ∃ links, (fetchRSSLinks w URL h).1 = .ok links := by
      unfold fetchRSSLinks
      cases hpage : w.page h URL with
      | none => exact ⟨[], rfl⟩
      | some toks => exact tokenLoop_returns w hp toks [] _
    obtain ⟨links, hl⟩ := hret
    exact ⟨links, hl, hbound links hl⟩

theorem fetchRSSLinks_length_le_witness :
    (fetchRSSLinks (sampleWorld [ascii "https://x.com/rsslatest", ascii "http://x.com/feed"]
      (some crowdedPage) none) (ascii "http://x.com") []).1 =
        .ok (List.replicate 20 (ascii "https://x.com/rsslatest")) ∧
    (List.replicate 20 (ascii "https://x.com/rsslatest")).length ≤ 20 :=
  ⟨by decide,
    (fetchRSSLinks_length_le
      (sampleWorld [ascii "https://x.com/rsslatest", ascii "http://x.com/feed"]
        (some crowdedPage) none) (ascii "http://x.com") []).1 _ (by decide)⟩

/-- C6: when the search yields at least one result and the first result's
address classifies as a feed, `googleSearchRssLinks` returns exactly that
address; the only calls made are the search and that one classification, so
the results at ranks 1 and 2 are neither classified nor harvested. -/
theorem googleSearchRssLinks_first_hit (w : World) (keyword : Str) (h : History)
    (r0 : GoogleResult) (rest : List GoogleResult)
    (hres : w.search h (searchURL keyword) = .ok (r0 :: rest))
    (hfeed : (isPageRSS w r0.ResultURL (h ++ [Call.googleSearchRssLinks keyword])).1 =
      .ok true) :
    googleSearchRssLinks w keyword h =
      (.ok [r0.ResultURL],
        h ++ [Call.googleSearchRssLinks keyword, Call.isPageRSS r0.ResultURL]) := by
  unfold googleSearchRssLinks
  simp only [hres, List.length_cons, Nat.add_one_ne_zero, if_false]
  rw [rankLoop_succ]
  simp only [List.getElem?_cons_zero, hfeed, List.append_assoc, List.singleton_append]

theorem googleSearchRssLinks_first_hit_witness :
    googleSearchRssLinks
        (sampleWorld [ascii "http://a.com/feed"] none (some [⟨ascii "http://a.com/feed"⟩]))
        (ascii "example") [] =
      (.ok [ascii "http://a.com/feed"],
        [] ++ [Call.googleSearchRssLinks (ascii "example"),
          Call.isPageRSS (ascii "http://a.com/feed")]) :=
  googleSearchRssLinks_first_hit
    (sampleWorld [ascii "http://a.com/feed"] none (some [⟨ascii "http://a.com/feed"⟩]))
    (ascii "example") [] ⟨ascii "http://a.com/feed"⟩ [] (by decide) (by decide)

/-! ## Reaching an attribute -/

theorem relatedAttrExists_eq_any (as : List Attribute) :
    relatedAttrExists as = as.any fun b => decide (b.Key = typeKey ∧ b.Val = rssType) := by
  induction as with
  | nil => rfl
  | cons a as ih =>
    unfold relatedAttrExists
    by_cases ha : a.Key = typeKey ∧ a.Val = rssType
    · simp [ha]
    · simp only [ha, if_false, ih, List.any_cons, decide_False, Bool.false_or]

theorem relatedAttrExists_of_mem (as : List Attribute)
    (htype : ∃ b ∈ as, b.Key = typeKey ∧ b.Val = rssType) : relatedAttrExists as = true := by
  rw [relatedAttrExists_eq_any, List.any_eq_true]
  obtain ⟨b, hb, hbt⟩ := htype
  exact ⟨b, hb, by simpa using hbt⟩

theorem attrLoop_append (w : World) (t : Token) (xs ys : List Attribute) (acc : List Str)
    (h : History) (s : Scan) (hs : (attrLoop w t xs acc h).1 = .ok s)
    (hroom : s.rssLinks.length < 20) :
    attrLoop w t (xs ++ ys) acc h = attrLoop w t ys s.rssLinks (attrLoop w t xs acc h).2 := by
  induction xs generalizing acc h with
  | nil =>
    rw [attrLoop_nil] at hs
    injection hs with hs
    subst hs
    rfl
  | cons a as ih =>
    rw [List.cons_append, attrLoop_cons, attrLoop_cons]
    rw [attrLoop_cons] at hs
    split
    · rename_i hge
      rw [if_pos hge] at hs
      injection hs with hs
      subst hs
      exact absurd hge (by simp only [ge_iff_le, not_le]; exact hroom)
    · rename_i hlt
      rw [if_neg hlt] at hs
      split
      · rename_i hk
        rw [if_pos hk] at hs
        split
        · rename_i e hr
          rw [hr] at hs
          cases hs
        · rename_i hr
          rw [hr] at hs
          exact ih _ _ hs
        · rename_i hr
          rw [hr] at hs
          exact ih _ _ hs
      · rename_i hk
        rw [if_neg hk] at hs
        exact ih _ _ hs

theorem tokenLoop_append (w : World) (pre rest : List Token) (acc : List Str) (h : History)
    (l : List Str) (hl : (tokenLoop w pre acc h).1 = .ok l) (hroom : l.length < 20) :
    tokenLoop w (pre ++ rest) acc h = tokenLoop w rest l (tokenLoop w pre acc h).2 := by
  induction pre generalizing acc h with
  | nil =>
    rw [tokenLoop_nil] at hl
    injection hl with hl
    subst hl
    rfl
  | cons t ts ih =>
    rw [List.cons_append, tokenLoop_cons, tokenLoop_cons]
    rw [tokenLoop_cons] at hl
    split
    · rename_i ht
      rw [if_pos ht] at hl
      split
      · rename_i e hr
        rw [hr] at hl
        cases hl
      · rename_i sc hr
        rw [hr] at hl
        simp only at hl
        split
        · rename_i hd
          rw [if_pos hd] at hl
          injection hl with hl
          subst hl
          have := (attrLoop_extends w t t.Attr acc h sc hr).2 hd
          omega
        · rename_i hd
          rw [if_neg hd] at hl
          exact ih _ _ hl
    · rename_i ht
      rw [if_neg ht] at hl
      exact ih _ _ hl

/-- C5, as stated, fails: on a page with twenty accepted `rss` anchors before
`<link type="application/rss+xml" href="http://x.com/feed">`, where that
address is a feed, the harvest returns the twenty anchors and not the
address. -/
theorem fetchRSSLinks_companion_dropped :
    feedLink ∈ crowdedPage ∧ feedLink.Typ = TokenType.StartTagToken ∧
    (⟨typeKey, rssType⟩ : Attribute) ∈ feedLink.Attr ∧
    (⟨hrefKey, ascii "http://x.com/feed"⟩ : Attribute) ∈ feedLink.Attr ∧
    (∀ h, (isPageRSS
      (sampleWorld [ascii "https://x.com/rsslatest", ascii "http://x.com/feed"]
        (some crowdedPage) none) (ascii "http://x.com/feed") h).1 = .ok true) ∧
    (sampleWorld [ascii "https://x.com/rsslatest", ascii "http://x.com/feed"]
      (some crowdedPage) none).page [] (ascii "http://x.com") = some crowdedPage ∧
    (fetchRSSLinks
      (sampleWorld [ascii "https://x.com/rsslatest", ascii "http://x.com/feed"]
        (some crowdedPage) none) (ascii "http://x.com") []).1 =
      .ok (List.replicate 20 (ascii "https://x.com/rsslatest")) ∧
    ascii "http://x.com/feed" ∉ List.replicate 20 (ascii "https://x.com/rsslatest") := by
  refine ⟨by decide, rfl, by decide, by decide, fun _ => rfl, rfl, by decide, by decide⟩

/-- C5, amended: when a start tag of the page carries
`type="application/rss+xml"` and `href=v` (in any order), fewer than 20 links
are held when the scan reaches that `href`, `v` classifies as a feed there,
and `fetchRSSLinks` returns, `v` is in the returned sequence.  Here `l1` and
`h1` are the links and the history after the tokens before the tag, `s` and
`h2` those after the attributes before the `href`. -/
theorem fetchRSSLinks_companion_href (w : World) (URL : Str) (h : History)
    (pre post : List Token) (t : Token) (as1 as2 : List Attribute) (a : Attribute)
    (l1 : List Str) (h1 : History) (s : Scan) (h2 : History) (links : List Str)
    (hpage : w.page h URL = some (pre ++ t :: post))
    (ht : t.Typ = TokenType.StartTagToken) (hattr : t.Attr = as1 ++ a :: as2)
    (hkey : a.Key = hrefKey) (htype : ∃ b ∈ t.Attr, b.Key = typeKey ∧ b.Val = rssType)
    (hpre : tokenLoop w pre [] (h ++ [Call.fetchRSSLinks URL]) = (.ok l1, h1))
    (has1 : attrLoop w t as1 l1 h1 = (.ok s, h2))
    (hroom : s.rssLinks.length < 20)
    (hfeed : (isPageRSS w a.Val h2).1 = .ok true)
    (hret : (fetchRSSLinks w URL h).1 = .ok links) :
    a.Val ∈ links := by
  have hs1 : (attrLoop w t as1 l1 h1).1 = .ok s := by rw [has1]
  have hl1 : (tokenLoop w pre [] (h ++ [Call.fetchRSSLinks URL])).1 = .ok l1 := by rw [hpre]
  have hl1len : l1.length < 20 :=
    Nat.lt_of_le_of_lt (attrLoop_extends w t as1 l1 h1 s hs1).1.length_le hroom
  have hrel : relatedAttrExists t.Attr = true := relatedAttrExists_of_mem t.Attr htype
  rw [fetchRSSLinks_eq_of_page w URL h _ hpage, tokenLoop_append w pre (t :: post) [] _ l1 hl1 hl1len,
    hpre, tokenLoop_cons, if_pos ht] at hret
  have hstep : attrLoop w t t.Attr l1 h1 =
      attrLoop w t as2 (s.rssLinks ++ [a.Val]) (h2 ++ [Call.isPageRSS a.Val]) := by
    rw [hattr, attrLoop_append w t as1 (a :: as2) l1 h1 s hs1 hroom, has1]
    dsimp only
    rw [attrLoop_cons, if_neg (by simp only [ge_iff_le, not_le]; exact hroom),
      if_pos ⟨hkey, Or.inl hrel⟩, hfeed]
  dsimp only at hret
  rw [hstep] at hret
  have hmem : a.Val ∈ s.rssLinks ++ [a.Val] := by simp
  split at hret
  · cases hret
  · rename_i sc hsc
    have hp := (attrLoop_extends w t as2 _ _ sc hsc).1
    split at hret
    · injection hret with hret
      subst hret
      exact hp.subset hmem
    · exact (hp.trans (tokenLoop_extends w post _ _ links hret)).subset hmem

theorem fetchRSSLinks_companion_href_witness :
    (fetchRSSLinks
      (sampleWorld [ascii "https://x.com/rsslatest", ascii "http://x.com/feed"]
        (some [rssAnchor, feedLink]) none) (ascii "http://x.com") []).1 =
      .ok [ascii "https://x.com/rsslatest", ascii "http://x.com/feed"] ∧
    ascii "http://x.com/feed" ∈
      [ascii "https://x.com/rsslatest", ascii "http://x.com/feed"] :=
  ⟨by decide,
    fetchRSSLinks_companion_href
      (sampleWorld [ascii "https://x.com/rsslatest", ascii "http://x.com/feed"]
        (some [rssAnchor, feedLink]) none)
      (ascii "http://x.com") [] [rssAnchor] [] feedLink [⟨typeKey, rssType⟩] []
      ⟨hrefKey, ascii "http://x.com/feed"⟩
      [ascii "https://x.com/rsslatest"]
      [Call.fetchRSSLinks (ascii "http://x.com"),
        Call.isPageRSS (ascii "https://x.com/rsslatest")]
      ⟨false, [ascii "https://x.com/rsslatest"]⟩
      [Call.fetchRSSLinks (ascii "http://x.com"),
        Call.isPageRSS (ascii "https://x.com/rsslatest")]
      [ascii "https://x.com/rsslatest", ascii "http://x.com/feed"]
      (by decide) rfl rfl rfl (by decide) (by decide) (by decide) (by decide) (by decide)
      (by decide)⟩

/-! ## The harvest against its reference -/

theorem take_take_append {α : Type} (n : Nat) (xs ys : List α) :
    (xs.take n ++ ys).take n = (xs ++ ys).take n := by
  by_cases hn : n ≤ xs.length
  · rw [List.take_append_of_le_length (by simp [hn]), List.take_take,
      List.take_append_of_le_length hn, Nat.min_self]
  · rw [List.take_of_length_le (l := xs) (by omega)]

theorem referenceLinks_cons (cls : Str → Bool) (t : Token) (ts : List Token) :
    referenceLinks cls (t :: ts) =
      if t.Typ = TokenType.StartTagToken then
        (t.Attr.filter (keeps cls t)).map Attribute.Val ++ referenceLinks cls ts
      else referenceLinks cls ts := rfl

theorem attrLoop_eq_take (w : World) (cls : Str → Bool) (t : Token) (as : List Attribute)
    (hcls : ∀ a ∈ as, a.Key = hrefKey → ∀ h, (isPageRSS w a.Val h).1 = .ok (cls a.Val))
    (acc : List Str) (h : History) (hacc : acc.length ≤ 20) :
    ∃ s, (attrLoop w t as acc h).1 = .ok s ∧
      s.rssLinks = (acc ++ (as.filter (keeps cls t)).map Attribute.Val).take 20 := by
  induction as generalizing acc h with
  | nil =>
    refine ⟨⟨false, acc⟩, rfl, ?_⟩
    simp only [List.filter_nil, List.map_nil, List.append_nil]
    rw [List.take_of_length_le hacc]
  | cons a as ih =>
    have hrest : ∀ b ∈ as, b.Key = hrefKey → ∀ h, (isPageRSS w b.Val h).1 = .ok (cls b.Val) :=
      fun b hb => hcls b (List.mem_cons_of_mem _ hb)
    rw [attrLoop_cons]
    split
    · rename_i hge
      refine ⟨⟨true, acc⟩, rfl, ?_⟩
      rw [List.take_append_of_le_length (by omega), List.take_of_length_le hacc]
    · rename_i hlt
      by_cases hk : a.Key = hrefKey ∧
          (relatedAttrExists t.Attr = true ∨ Contains a.Val rssWord = true)
      · rw [if_pos hk, hcls a (List.mem_cons_self _ _) hk.1 h]
        have hsyn : (decide (a.Key = hrefKey) &&
            ((t.Attr.any fun b => decide (b.Key = typeKey ∧ b.Val = rssType)) ||
              decide (rssWord <:+: a.Val))) = true := by
          rw [← relatedAttrExists_eq_any]
          simp only [Bool.and_eq_true, Bool.or_eq_true, decide_eq_true_eq, ← contains_iff]
          exact hk
        cases hc : cls a.Val with
        | true =>
          have hkeep : keeps cls t a = true := by
            unfold keeps; rw [hsyn, hc]; rfl
          rw [List.filter_cons_of_pos hkeep]
          obtain ⟨s, hs, hs2⟩ := ih hrest (acc ++ [a.Val]) (h ++ [Call.isPageRSS a.Val])
            (by rw [List.length_append, List.length_singleton]; omega)
          exact ⟨s, hs, by simpa using hs2⟩
        | false =>
          have hkeep : ¬ keeps cls t a = true := by
            unfold keeps; simp [hc]
          rw [List.filter_cons_of_neg hkeep]
          exact ih hrest acc _ hacc
      · rw [if_neg hk]
        have hkeep : ¬ keeps cls t a = true := by
          unfold keeps
          rw [← relatedAttrExists_eq_any]
          simp only [Bool.and_eq_true, Bool.or_eq_true, decide_eq_true_eq, ← contains_iff]
          tauto
        rw [List.filter_cons_of_neg hkeep]
        exact ih hrest acc _ hacc

theorem tokenLoop_eq_take (w : World) (cls : Str → Bool) (ts : List Token)
    (hcls : ∀ t ∈ ts, ∀ a ∈ t.Attr, a.Key = hrefKey →
      ∀ h, (isPageRSS w a.Val h).1 = .ok (cls a.Val))
    (acc : List Str) (h : History) (hacc : acc.length ≤ 20) :
    (tokenLoop w ts acc h).1 = .ok ((acc ++ referenceLinks cls ts).take 20) := by
  induction ts generalizing acc h with
  | nil =>
    rw [tokenLoop_nil]
    simp only [referenceLinks, List.append_nil]
    rw [List.take_of_length_le hacc]
  | cons t ts ih =>
    have hrest : ∀ u ∈ ts, ∀ a ∈ u.Attr, a.Key = hrefKey →
        ∀ h, (isPageRSS w a.Val h).1 = .ok (cls a.Val) :=
      fun u hu => hcls u (List.mem_cons_of_mem _ hu)
    rw [tokenLoop_cons, referenceLinks_cons]
    by_cases ht : t.Typ = TokenType.StartTagToken
    · rw [if_pos ht, if_pos ht]
      obtain ⟨s, hs, hs2⟩ :=
        attrLoop_eq_take w cls t t.Attr (hcls t (List.mem_cons_self _ _)) acc h hacc
      rw [hs]
      simp only
      split
      · rename_i hdone
        have h20 := (attrLoop_extends w t t.Attr acc h s hs).2 hdone
        rw [hs2, List.length_take] at h20
        have hlen : 20 ≤ (acc ++ (t.Attr.filter (keeps cls t)).map Attribute.Val).length := by
          omega
        rw [hs2, ← List.append_assoc, List.take_append_of_le_length hlen]
      · rw [ih hrest _ _ (attrLoop_length_le w t t.Attr acc h s hacc hs), hs2, take_take_append,
          List.append_assoc]
    · rw [if_neg ht, if_neg ht]
      exact ih hrest acc h hacc

/-- Outside the nil dereference the harvest is the reference list cut at 20:
when `isPageRSS` returns `cls v` on every `href` value `v` of the page,
`fetchRSSLinks` returns the first 20 elements of the reference list. -/
theorem fetchRSSLinks_eq_reference (w : World) (cls : Str → Bool) (URL : Str) (h : History)
    (toks : List Token) (hpage : w.page h URL = some toks)
    (hcls : ∀ t ∈ toks, ∀ a ∈ t.Attr, a.Key = hrefKey →
      ∀ h1, (isPageRSS w a.Val h1).1 = .ok (cls a.Val)) :
    (fetchRSSLinks w URL h).1 = .ok ((referenceLinks cls toks).take 20) := by
  rw [fetchRSSLinks_eq_of_page w URL h toks hpage,
    tokenLoop_eq_take w cls toks hcls [] _ (by simp)]
  rfl

/-- C9 fails on the code: on the page
`<a href=":rss"><link type="application/rss+xml" href="http://x.com/feed">`,
with the deterministic classifier that accepts `http://x.com/feed` only, the
reference list is that one address, and `fetchRSSLinks` returns nothing: the
classification of `:rss` dereferences the `nil` request. -/
theorem fetchRSSLinks_unparsable_href :
    (sampleWorld [ascii "http://x.com/feed"] (some [brokenAnchor, feedLink]) none).page []
      (ascii "http://x.com") = some [brokenAnchor, feedLink] ∧
    (∀ u h, parses u = true →
      (isPageRSS (sampleWorld [ascii "http://x.com/feed"] (some [brokenAnchor, feedLink]) none)
        u h).1 = .ok (decide (u = ascii "http://x.com/feed"))) ∧
    (referenceLinks (fun u => decide (u = ascii "http://x.com/feed"))
      [brokenAnchor, feedLink]).take 20 = [ascii "http://x.com/feed"] ∧
    fetchRSSLinks (sampleWorld [ascii "http://x.com/feed"] (some [brokenAnchor, feedLink]) none)
      (ascii "http://x.com") [] =
      (.error .nilDereference,
        [Call.fetchRSSLinks (ascii "http://x.com"), Call.isPageRSS (ascii ":rss")]) := by
  refine ⟨by decide, ?_, by decide, by decide⟩
  intro u h hp
  rw [isPageRSS_fst]
  show (match (if parses u = true then
      (if [ascii "http://x.com/feed"].contains u = true then Fetched.ok xmlBody
        else Fetched.failed)
      else Fetched.badRequest) with
    | .badRequest => Except.error Fault.nilDereference
    | .failed => Except.ok false
    | .ok body => Except.ok (classifyBody body)) = _
  rw [if_pos hp]
  by_cases hu : u = ascii "http://x.com/feed"
  · subst hu; decide
  · have hc : [ascii "http://x.com/feed"].contains u = false := by
      simp [hu]
    rw [hc]
    simp [hu]

/-! ## The rank loop -/

theorem rankLoop_no_match (w : World) (result : List GoogleResult)
    (hnofeed : ∀ r ∈ result.take 3, ∀ h, (isPageRSS w r.ResultURL h).1 = .ok false)
    (hnoharvest : ∀ r ∈ result.take 3, ∀ h, (fetchRSSLinks w r.ResultURL h).1 = .ok [])
    (n i : Nat) (h : History) (hi : i ≤ result.length) (hn : i + n ≤ 3) :
    (rankLoop w result n i h).1 =
      if i + n ≤ result.length then .ok []
      else .error (.indexOutOfRange result.length result.length) := by
  induction n generalizing i h with
  | zero => simp [rankLoop, hi]
  | succ n ih =>
    rw [rankLoop_succ]
    by_cases hlt : i < result.length
    · have hget : result[i]? = some result[i] := List.getElem?_eq_getElem hlt
      have hmem : result[i] ∈ result.take 3 := by
        apply List.getElem?_mem (n := i)
        rw [List.getElem?_take_of_lt (by omega)]
        exact hget
      rw [hget]
      simp only [hnofeed _ hmem, hnoharvest _ hmem, List.length_nil, ne_eq, not_true_eq_false,
        if_false]
      rw [ih (i + 1) _ (by omega) (by omega)]
      have : i + 1 + n = i + (n + 1) := by omega
      rw [this]
    · have hlen : i = result.length := by omega
      have hget : result[i]? = none := List.getElem?_eq_none (by omega)
      rw [hget]
      simp only
      rw [if_neg (by omega), hlen]

/-- Outside the nil dereference the rank loop behaves as described: when the
classification of each of the first three results returns false and their
harvest returns nothing, `googleSearchRssLinks` ends in an index out of range
on 1 or 2 results and returns the empty sequence on 3 or more. -/
theorem googleSearchRssLinks_no_match (w : World) (keyword : Str) (h : History)
    (result : List GoogleResult)
    (hres : w.search h (searchURL keyword) = .ok result)
    (hnofeed : ∀ r ∈ result.take 3, ∀ h1, (isPageRSS w r.ResultURL h1).1 = .ok false)
    (hnoharvest : ∀ r ∈ result.take 3, ∀ h1, (fetchRSSLinks w r.ResultURL h1).1 = .ok []) :
    (result.length = 1 ∨ result.length = 2 →
      (googleSearchRssLinks w keyword h).1 =
        .error (.indexOutOfRange result.length result.length)) ∧
    (3 ≤ result.length → (googleSearchRssLinks w keyword h).1 = .ok []) := by
  have hloop := rankLoop_no_match w result hnofeed hnoharvest 3 0
    (h ++ [Call.googleSearchRssLinks keyword]) (Nat.zero_le _) (by omega)
  constructor
  · intro hlen
    unfold googleSearchRssLinks
    simp only [hres]
    rw [if_neg (by omega), hloop, if_neg (by omega)]
  · intro hlen
    unfold googleSearchRssLinks
    simp only [hres]
    rw [if_neg (by omega), hloop, if_pos (by omega)]

/-- C8 fails on the code: with the three results `http://a.com`,
`http://exa mple.com`, `http://c.com` on a network where nothing can be
fetched, no result classifies as a feed and none yields a harvest, yet
`googleSearchRssLinks` does not return the empty sequence: the classification
of the second result dereferences the `nil` request. -/
theorem googleSearchRssLinks_unparsable_result :
    (sampleWorld [] none (some [⟨ascii "http://a.com"⟩, ⟨ascii "http://exa mple.com"⟩,
      ⟨ascii "http://c.com"⟩])).search [] (searchURL (ascii "example")) =
      .ok [⟨ascii "http://a.com"⟩, ⟨ascii "http://exa mple.com"⟩, ⟨ascii "http://c.com"⟩] ∧
    (∀ u h, (isPageRSS (sampleWorld [] none (some [⟨ascii "http://a.com"⟩,
      ⟨ascii "http://exa mple.com"⟩, ⟨ascii "http://c.com"⟩])) u h).1 ≠ .ok true) ∧
    (∀ u h, (fetchRSSLinks (sampleWorld [] none (some [⟨ascii "http://a.com"⟩,
      ⟨ascii "http://exa mple.com"⟩, ⟨ascii "http://c.com"⟩])) u h).1 = .ok []) ∧
    googleSearchRssLinks (sampleWorld [] none (some [⟨ascii "http://a.com"⟩,
      ⟨ascii "http://exa mple.com"⟩, ⟨ascii "http://c.com"⟩])) (ascii "example") [] =
      (.error .nilDereference,
        [Call.googleSearchRssLinks (ascii "example"),
          Call.isPageRSS (ascii "http://a.com"),
          Call.fetchRSSLinks (ascii "http://a.com"),
          Call.isPageRSS (ascii "http://exa mple.com")]) := by
  refine ⟨by decide, ?_, ?_, by decide⟩
  · intro u h
    rw [isPageRSS_fst]
    show (match (if parses u = true then
        (if ([] : List Str).contains u = true then Fetched.ok xmlBody else Fetched.failed)
        else Fetched.badRequest) with
      | .badRequest => Except.error Fault.nilDereference
      | .failed => Except.ok false
      | .ok body => Except.ok (classifyBody body)) ≠ _
    cases parses u <;> simp
  · intro u h
    unfold fetchRSSLinks
    show (match (if parses u = true then (none : Option (List Token)) else none) with
      | none => (Except.ok [], h ++ [Call.fetchRSSLinks u])
      | some toks => tokenLoop _ toks [] (h ++ [Call.fetchRSSLinks u])).1 = _
    cases parses u <;> rfl

/-- C7 fails on the code: `Crawl` ends in an index out of range on the address
`www` when nothing can be fetched (`parts[1]` of a one-segment split), and on
`example.com` when the search has a single result that is no feed and has no
links (`result[1]` of a one-element slice). -/
theorem Crawl_index_out_of_range :
    Crawl deadWorld (ascii "www") [] =
      (.error (.indexOutOfRange 1 1),
        [Call.isPageRSS (ascii "http://www"), Call.fetchRSSLinks (ascii "http://www")]) ∧
    Crawl (sampleWorld [] none (some [⟨ascii "http://a.com"⟩])) (ascii "example.com") [] =
      (.error (.indexOutOfRange 1 1),
        [Call.isPageRSS (ascii "http://example.com"),
          Call.fetchRSSLinks (ascii "http://example.com"),
          Call.googleSearchRssLinks (ascii "example"),
          Call.isPageRSS (ascii "http://a.com"),
          Call.fetchRSSLinks (ascii "http://a.com")]) := by
  constructor <;> decide

/-! ## Splitting at the dots -/

theorem split_cons_of_ne (c sep : Nat) (s p : Str) (ps : List Str) (hc : c ≠ sep)
    (hs : Split s sep = p :: ps) : Split (c :: s) sep = (c :: p) :: ps := by
  simp only [Split, if_neg hc, hs]

theorem split_cons_sep (sep : Nat) (s : Str) : Split (sep :: s) sep = [] :: Split s sep := by
  simp only [Split, if_true]

theorem split_ne_nil (s : Str) (sep : Nat) : ∃ p ps, Split s sep = p :: ps := by
  induction s with
  | nil => exact ⟨[], [], rfl⟩
  | cons c s ih =>
    obtain ⟨p, ps, hp⟩ := ih
    by_cases hc : c = sep
    · subst hc; exact ⟨[], Split s c, split_cons_sep c s⟩
    · exact ⟨c :: p, ps, split_cons_of_ne c sep s p ps hc hp⟩

theorem split_of_mem (s : Str) (sep : Nat) (hmem : sep ∈ s) :
    ∃ p0 p1 ps, Split s sep = p0 :: p1 :: ps := by
  induction s with
  | nil => simp at hmem
  | cons c s ih =>
    by_cases hc : c = sep
    · subst hc
      obtain ⟨p, ps, hp⟩ := split_ne_nil s c
      exact ⟨[], p, ps, by rw [split_cons_sep, hp]⟩
    · have hin : sep ∈ s := by
        rcases List.mem_cons.1 hmem with h | h
        · exact absurd h.symm hc
        · exact h
      obtain ⟨p0, p1, ps, hp⟩ := ih hin
      exact ⟨c :: p0, p1, ps, split_cons_of_ne c sep s p0 (p1 :: ps) hc hp⟩

theorem split_append_of_not_mem (pre s p : Str) (ps : List Str) (sep : Nat) (hpre : sep ∉ pre)
    (hs : Split s sep = p :: ps) : Split (pre ++ s) sep = (pre ++ p) :: ps := by
  induction pre with
  | nil => simpa using hs
  | cons c pre ih =>
    have hc : c ≠ sep := fun hc => hpre (hc ▸ List.mem_cons_self _ _)
    have hrest : sep ∉ pre := fun hm => hpre (List.mem_cons_of_mem _ hm)
    rw [List.cons_append, split_cons_of_ne c sep _ _ ps hc (ih hrest), List.cons_append]

theorem split_head_isPrefix (s : Str) (sep : Nat) (p : Str) (ps : List Str)
    (hs : Split s sep = p :: ps) : p <+: s := by
  induction s generalizing p ps with
  | nil =>
    simp only [Split, List.cons.injEq] at hs
    rw [← hs.1]
  | cons c s ih =>
    by_cases hc : c = sep
    · subst hc
      rw [split_cons_sep, List.cons.injEq] at hs
      rw [← hs.1]; exact List.nil_prefix
    · obtain ⟨q, qs, hq⟩ := split_ne_nil s sep
      rw [split_cons_of_ne c sep s q qs hc hq, List.cons.injEq] at hs
      rw [← hs.1, List.cons_prefix_cons]
      exact ⟨rfl, ih q qs hq⟩

theorem split_segments_no_sep (s : Str) (sep : Nat) : ∀ p ∈ Split s sep, sep ∉ p := by
  induction s with
  | nil => simp [Split]
  | cons c s ih =>
    by_cases hc : c = sep
    · subst hc
      rw [split_cons_sep]
      intro p hp
      rcases List.mem_cons.1 hp with h | h
      · rw [h]; simp
      · exact ih p h
    · obtain ⟨q, qs, hq⟩ := split_ne_nil s sep
      rw [split_cons_of_ne c sep s q qs hc hq]
      intro p hp
      rcases List.mem_cons.1 hp with h | h
      · rw [h]
        intro hm
        rcases List.mem_cons.1 hm with h1 | h1
        · exact hc h1.symm
        · exact ih q (by rw [hq]; exact List.mem_cons_self _ _) h1
      · exact ih p (by rw [hq]; exact List.mem_cons_of_mem _ h)

theorem split_intercalate (s : Str) (sep : Nat) :
    List.intercalate [sep] (Split s sep) = s := by
  induction s with
  | nil => rfl
  | cons c s ih =>
    obtain ⟨q, qs, hq⟩ := split_ne_nil s sep
    rw [hq] at ih
    by_cases hc : c = sep
    · subst hc
      rw [split_cons_sep, hq]
      cases qs with
      | nil => simpa [List.intercalate] using ih
      | cons r rs => simpa [List.intercalate] using ih
    · rw [split_cons_of_ne c sep s q qs hc hq]
      cases qs with
      | nil => simpa [List.intercalate] using ih
      | cons r rs => simpa [List.intercalate] using ih

theorem httpScheme_eq : httpScheme = [104, 116, 116, 112, 58, 47, 47] := by decide

theorem httpsScheme_eq : httpsScheme = [104, 116, 116, 112, 115, 58, 47, 47] := by decide

theorem contains_https_http_append (p : Str) :
    Contains (httpScheme ++ p) httpsScheme = Contains p httpsScheme := by
  rw [httpScheme_eq, httpsScheme_eq]
  simp [Contains, HasPrefix]

theorem hasPrefix_append_self (p s : Str) : HasPrefix (p ++ s) p = true :=
  (hasPrefix_iff _ _).2 (List.prefix_append p s)

theorem deriveKeyword_of_no_scheme (s p0 p1 : Str) (ps : List Str)
    (h2 : ¬ httpsScheme <:+: s) (hsplit : Split s dot = p0 :: p1 :: ps) :
    deriveKeyword (httpScheme ++ s) = .ok (if p0 = ascii "www" then p1 else p0) := by
  have hparts : Split (httpScheme ++ s) dot = (httpScheme ++ p0) :: p1 :: ps :=
    split_append_of_not_mem httpScheme s p0 (p1 :: ps) dot (by decide) hsplit
  have hwww : ascii "http://www" = httpScheme ++ ascii "www" := by decide
  have hnot : httpScheme ++ p0 ≠ ascii "https://www" := by
    intro he
    have h4 : (httpScheme ++ p0)[4]? = (ascii "https://www")[4]? := by rw [he]
    have hr : (ascii "https://www")[4]? = some 115 := by decide
    rw [hr, httpScheme_eq] at h4
    simp at h4
  unfold deriveKeyword
  simp only [hparts, List.getElem?_cons_zero, List.getElem?_cons_succ]
  by_cases hp : p0 = ascii "www"
  · rw [if_pos (Or.inl (by rw [hp, hwww])), if_pos hp]
  · have hne : ¬ (httpScheme ++ p0 = ascii "http://www" ∨ httpScheme ++ p0 = ascii "https://www") := by
      rintro (he | he)
      · rw [hwww] at he
        exact hp (List.append_cancel_left he)
      · exact hnot he
    have hp0 : ¬ httpsScheme <:+: p0 := fun hin =>
      h2 (hin.trans (split_head_isPrefix s dot p0 (p1 :: ps) hsplit).isInfix)
    rw [if_neg hne, if_neg hp, contains_https_http_append,
      (contains_eq_false_iff p0 httpsScheme).2 hp0]
    rw [if_neg (by simp), (contains_iff _ _).2 (List.prefix_append httpScheme p0).isInfix,
      if_pos rfl]
    unfold TrimPrefix
    rw [hasPrefix_append_self, if_pos rfl, List.drop_left]

/-- C10: for an address `s` without `"http://"` and `"https://"` and with at
least one `.`, the keyword derived from the normalized address is the second
dot-separated segment of `s` when the first one is `www`, and the first
segment, free of scheme text, otherwise; when the direct check and the
harvest yield nothing it is the keyword `googleSearchRssLinks` is entered
with. -/
theorem Crawl_keyword (w : World) (s : Str) (h : History)
    (h1 : ¬ httpScheme <:+: s) (h2 : ¬ httpsScheme <:+: s) (hdot : dot ∈ s) :
    (∃ p0 p1 ps keyword, Split s dot = p0 :: p1 :: ps ∧
      keyword = (if p0 = ascii "www" then p1 else p0) ∧
      (p0 ≠ ascii "www" → ¬ httpScheme <:+: keyword ∧ ¬ httpsScheme <:+: keyword) ∧
      deriveKeyword (normalize s) = .ok keyword ∧
      ((isPageRSS w (normalize s) h).1 = .ok false →
        (fetchRSSLinks w (normalize s) (h ++ [Call.isPageRSS (normalize s)])).1 = .ok [] →
        Crawl w s h = googleSearchRssLinks w keyword
          (fetchRSSLinks w (normalize s) (h ++ [Call.isPageRSS (normalize s)])).2 ∧
        ∃ l, (Crawl w s h).2 =
          (fetchRSSLinks w (normalize s) (h ++ [Call.isPageRSS (normalize s)])).2 ++
            Call.googleSearchRssLinks keyword :: l)) ∧
    deriveKeyword (normalize (ascii "example.com")) = .ok (ascii "example") ∧
    deriveKeyword (normalize (ascii "www.example.com")) = .ok (ascii "example") := by
  refine ⟨?_, by decide, by decide⟩
  obtain ⟨p0, p1, ps, hsplit⟩ := split_of_mem s dot hdot
  have hkw : deriveKeyword (normalize s) = .ok (if p0 = ascii "www" then p1 else p0) := by
    rw [normalize_of_no_scheme s h1 h2]
    exact deriveKeyword_of_no_scheme s p0 p1 ps h2 hsplit
  refine ⟨p0, p1, ps, _, hsplit, rfl, ?_, hkw, ?_⟩
  · intro hp
    rw [if_neg hp]
    have hpre := (split_head_isPrefix s dot p0 (p1 :: ps) hsplit).isInfix
    exact ⟨fun hin => h1 (hin.trans hpre), fun hin => h2 (hin.trans hpre)⟩
  · intro hc hf
    have hcrawl : Crawl w s h = googleSearchRssLinks w (if p0 = ascii "www" then p1 else p0)
        (fetchRSSLinks w (normalize s) (h ++ [Call.isPageRSS (normalize s)])).2 := by
      rw [Crawl_eq, hc]
      simp only [hf, hkw, List.length_nil, if_true]
    refine ⟨hcrawl, ?_⟩
    rw [hcrawl]
    exact googleSearchRssLinks_hist w _ _

theorem Crawl_keyword_witness :
    (∃ p0 p1 ps keyword, Split (ascii "www.example.com") dot = p0 :: p1 :: ps ∧
      keyword = (if p0 = ascii "www" then p1 else p0) ∧
      (p0 ≠ ascii "www" → ¬ httpScheme <:+: keyword ∧ ¬ httpsScheme <:+: keyword) ∧
      deriveKeyword (normalize (ascii "www.example.com")) = .ok keyword ∧
      ((isPageRSS deadWorld (normalize (ascii "www.example.com")) []).1 = .ok false →
        (fetchRSSLinks deadWorld (normalize (ascii "www.example.com"))
          ([] ++ [Call.isPageRSS (normalize (ascii "www.example.com"))])).1 = .ok [] →
        Crawl deadWorld (ascii "www.example.com") [] = googleSearchRssLinks deadWorld keyword
          (fetchRSSLinks deadWorld (normalize (ascii "www.example.com"))
            ([] ++ [Call.isPageRSS (normalize (ascii "www.example.com"))])).2 ∧
        ∃ l, (Crawl deadWorld (ascii "www.example.com") []).2 =
          (fetchRSSLinks deadWorld (normalize (ascii "www.example.com"))
            ([] ++ [Call.isPageRSS (normalize (ascii "www.example.com"))])).2 ++
            Call.googleSearchRssLinks keyword :: l)) :=
  (Crawl_keyword deadWorld (ascii "www.example.com") [] (by decide) (by decide) (by decide)).1

end Crawler
